import Mathlib

/-!
# Verification of the latools core (autorange, despiking, filter registry, optimiser)

Shallow embedding of the relevant parts of `src/latools/latools.py`,
`src/latools/helpers.py` and `src/latools/signal_optimiser.py`, together with
proofs settling the frozen claims about them.

Modelling conventions:
* numpy float arrays are `List (Option ℚ)`, where `none` plays the role of NaN
  (every comparison with `none` is `false`, matching IEEE NaN comparisons);
  arrays that provably hold no NaN are plain `List ℚ`.
* boolean numpy arrays are `List Bool`.
* Python dicts are association lists in insertion order; `d[k] = v` overwrites
  in place, `del d[k]` raises `KeyError` when the key is absent.
* code that can raise returns `Except PyErr`.
* calls into external numeric libraries (scipy KDE, curve_fit, sqrt, 10**x)
  are parameters of the embedded functions; the surrounding control flow and
  array bookkeeping is embedded exactly.
-/

namespace LATools

/-- Python exceptions raised by the embedded code paths. -/
inductive PyErr where
  | keyError : PyErr
  | nameError : PyErr
  | indexError : PyErr
  deriving Repr, DecidableEq

/-! ## Python dicts as insertion-ordered association lists -/

/-- Python dict lookup `d[k]` (as an `Option`). -/
def dictGet? [DecidableEq κ] : List (κ × α) → κ → Option α
  | [], _ => none
  | p :: d, k => if p.1 = k then some p.2 else dictGet? d k

/-- Python dict assignment `d[k] = v`: overwrites in place if the key exists,
otherwise appends at the end (insertion order). -/
def dictSet [DecidableEq κ] : List (κ × α) → κ → α → List (κ × α)
  | [], k, v => [(k, v)]
  | p :: d, k, v => if p.1 = k then (k, v) :: d else p :: dictSet d k v

/-- Python `del d[k]`: removes the entry, raising `KeyError` if absent. -/
def dictDel [DecidableEq κ] : List (κ × α) → κ → Except PyErr (List (κ × α))
  | [], _ => .error .keyError
  | p :: d, k => if p.1 = k then .ok d else (dictDel d k).map (p :: ·)

theorem dictGet?_dictSet_self [DecidableEq κ] (d : List (κ × α)) (k : κ) (v : α) :
    dictGet? (dictSet d k v) k = some v := by
  induction d with
  | nil => simp [dictGet?, dictSet]
  | cons p d ih =>
    by_cases h : p.1 = k
    · simp [dictSet, h, dictGet?]
    · simp [dictSet, h, dictGet?, ih]

theorem dictDel_dictSet [DecidableEq κ] (d : List (κ × α)) (k : κ) (v : α) :
    ∃ d', dictDel (dictSet d k v) k = .ok d' := by
  induction d with
  | nil => exact ⟨[], by simp [dictSet, dictDel]⟩
  | cons p d ih =>
    by_cases h : p.1 = k
    · exact ⟨d, by simp [dictSet, h, dictDel]⟩
    · obtain ⟨d', hd'⟩ := ih
      exact ⟨p :: d', by simp [dictSet, h, dictDel, hd', Except.map]⟩

theorem dictDel_of_get?_none [DecidableEq κ] (d : List (κ × α)) (k : κ)
    (h : dictGet? d k = none) : dictDel d k = .error .keyError := by
  induction d with
  | nil => rfl
  | cons p d ih =>
    by_cases hp : p.1 = k
    · simp [dictGet?, hp] at h
    · simp [dictGet?, hp] at h
      simp [dictDel, hp, ih h, Except.map]

theorem length_dictSet_of_mem [DecidableEq κ] (d : List (κ × α)) (k : κ) (v : α)
    (h : dictGet? d k ≠ none) : (dictSet d k v).length = d.length := by
  induction d with
  | nil => simp [dictGet?] at h
  | cons p d ih =>
    by_cases hp : p.1 = k
    · simp [dictSet, hp]
    · simp [dictGet?, hp] at h
      simp [dictSet, hp, ih h]

/-! ## The filter registry (`class filt`, latools.py lines 2887–3245)

`keys` is populated by `make` with *analyte* names only, and `sequence` is
populated by `add` with *integer* keys (`self.sequence[self.n] = name`).
The `sequence` dict therefore holds keys that are either ints (from `add`)
or strings (what `remove` tries to delete), modelled as `ℕ ⊕ String`. -/

structure FiltState where
  size : ℕ
  analytes : List String
  components : List (String × List Bool)
  info : List (String × String)
  params : List (String × String)
  keys : List (String × String)
  sequence : List ((ℕ ⊕ String) × String)
  n : ℕ
  switches : List (String × List (String × Bool))
  deriving Repr, DecidableEq

/-- `filt.add` (latools.py lines 2945–2971): unconditionally assigns
`components[name]`, `info[name]`, `params[name]`, `sequence[self.n] = name`,
increments `n`, and sets `switches[a][name] = True` for every analyte.
There is no duplicate-name check anywhere in the method. -/
def filtAdd (st : FiltState) (name : String) (mask : List Bool)
    (inf : String) (par : String) : FiltState :=
  { st with
    components := dictSet st.components name mask
    info := dictSet st.info name inf
    params := dictSet st.params name par
    sequence := dictSet st.sequence (Sum.inl st.n) name
    n := st.n + 1
    switches := st.switches.map
      (fun p => if p.1 ∈ st.analytes then (p.1, dictSet p.2 name true) else p) }

/-- `filt.remove` (latools.py lines 2973–2993): in order,
`del self.components[name]`, `del self.info[name]`, `del self.params[name]`,
`del self.keys[name]`, `del self.sequence[name]`, then
`del self.switches[a][name]` for each analyte.  Each `del` is the fallible
`dictDel`. -/
def filtRemove (st : FiltState) (name : String) : Except PyErr FiltState := do
  let c1 ← dictDel st.components name
  let c2 ← dictDel st.info name
  let c3 ← dictDel st.params name
  let c4 ← dictDel st.keys name
  let c5 ← dictDel st.sequence (Sum.inr name)
  let c6 ← st.analytes.foldlM (fun sw a =>
    match dictGet? sw a with
    | none => Except.error PyErr.keyError
    | some m => (dictDel m name).map (fun m' => dictSet sw a m')) st.switches
  pure { st with components := c1, info := c2, params := c3, keys := c4,
                 sequence := c5, switches := c6 }

/-- Splitting a character list on the separator " & " (the inverse of the
" & "-join used by `make`). -/
def splitAmpAux : List Char → List Char → List (List Char)
  | [], acc => [acc]
  | ' ' :: '&' :: ' ' :: rest, acc => acc :: splitAmpAux rest []
  | c :: rest, acc => splitAmpAux rest (acc ++ [c])

/-- `key.split(" & ")` on the conjunctive keys produced by `make`. -/
def splitOnAmp (key : String) : List String :=
  (splitAmpAux key.toList []).map (fun cs => String.mk cs)

/-- `filt.make_fromkey` (latools.py lines 3114–3146), restricted to the
conjunctive keys that `filt.make` produces (names joined by " & ").
The source substitutes each name by `self.components[name]` and evaluates the
resulting expression; an unknown name raises `KeyError`.  An empty key returns
`~np.zeros(self.size)`, the all-True mask. -/
def makeFromKey (st : FiltState) (key : String) : Except PyErr (List Bool) :=
  if key ≠ "" then do
    let names := splitOnAmp key
    let masks ← names.mapM (fun nm =>
      match dictGet? st.components nm with
      | none => Except.error PyErr.keyError
      | some m => Except.ok m)
    match masks with
    | [] => .error .keyError
    | m :: ms => .ok (ms.foldl (fun acc m2 => acc.zipWith (· && ·) m2) m)
  else
    .ok (List.replicate st.size true)

/-- `filt.make` (latools.py lines 3085–3112) for a single analyte: collects the
names of filters switched on for that analyte, joins the sorted names with
" & ", caches the key, and evaluates it with `make_fromkey`.
Reading `self.switches[a][f]` raises `KeyError` on missing entries. -/
def filtMake (st : FiltState) (analyte : String) : Except PyErr (List Bool) := do
  let enabled ← st.components.foldlM (fun acc p =>
    match dictGet? st.switches analyte with
    | none => Except.error PyErr.keyError
    | some sw =>
      match dictGet? sw p.1 with
      | none => Except.error PyErr.keyError
      | some b => Except.ok (if b then acc ++ [p.1] else acc)) ([] : List String)
  let key := " & ".intercalate (enabled.mergeSort (fun a b => a ≤ b))
  makeFromKey st key

/-- The selector argument of `grab_filt`: a key string, a dict of keys, or a
boolean. -/
inductive Selector where
  | str (s : String)
  | dict (d : List (String × String))
  | bool (b : Bool)
  deriving Repr, DecidableEq

/-- `filt.grab_filt` (latools.py lines 3178–3209).  The boolean-True branch of
the source is `ind = self.make(a)`, where `a` is not defined anywhere in the
method or module, so reaching it raises `NameError` unconditionally. -/
def grabFilt (st : FiltState) (filt : Selector) (analyte : Option String) :
    Except PyErr (List Bool) :=
  match filt with
  | .str s => makeFromKey st s
  | .dict d =>
    match analyte with
    | some a =>
      match dictGet? d a with
      | none => .error .keyError
      | some key => makeFromKey st key
    | none => .error .keyError
  | .bool b =>
    if b then .error .nameError
    else .ok (List.replicate st.size true)

/-- Key-preservation of the switches update in `filt.add`: any analyte entry
of the updated switches table maps the new name to `True`. -/
theorem dictGet?_switches_add (sws : List (String × List (String × Bool)))
    (ans : List String) (name a : String) (sw : List (String × Bool)) (ha : a ∈ ans)
    (h : dictGet? (sws.map (fun p => if p.1 ∈ ans then (p.1, dictSet p.2 name true) else p)) a
      = some sw) : dictGet? sw name = some true := by
  induction sws with
  | nil => simp [dictGet?] at h
  | cons p d ih =>
    obtain ⟨k, m⟩ := p
    by_cases hp : k = a
    · subst hp
      simp [dictGet?, ha] at h
      rw [← h]
      exact dictGet?_dictSet_self _ _ _
    · by_cases hm : k ∈ ans
      · simp only [List.map_cons, if_pos hm, dictGet?, if_neg hp] at h
        exact ih h
      · simp only [List.map_cons, if_neg hm, dictGet?, if_neg hp] at h
        exact ih h

/-! ## Claim C5 material: `findmins` and autorange step 1 -/

/-- `D.findmins` (latools.py lines 1573–1585):
`x[np.r_[False, y[1:] < y[:-1]] & np.r_[y[:-1] < y[1:], False]]`, i.e. the x
positions of strict interior local minima of y. -/
def findmins (x y : List ℚ) : List ℚ :=
  ((List.range y.length).filter (fun i =>
    decide (0 < i) && decide (i + 1 < y.length) &&
    decide (y.getD i 0 < y.getD (i - 1) 0) &&
    decide (y.getD i 0 < y.getD (i + 1) 0))).map (fun i => x.getD i 0)

/-- Step 1 of `D.autorange` (latools.py lines 1779–1796): after building the
kde grid `x` and density `yd` (external numerics, passed as parameters), the
source computes `mins = self.findmins(x, yd)` and then indexes
`bkg = v < 1.2 * 10**mins[0]`.  When `mins` is empty the subscript `mins[0]`
raises `IndexError`.  `pow10` abstracts the external `10**` evaluation. -/
def autorangeStep1 (x yd v : List ℚ) (pow10 : ℚ → ℚ) : Except PyErr (List Bool) :=
  match findmins x yd with
  | [] => .error .indexError
  | m :: _ => .ok (v.map (fun w => decide (w < 6/5 * pow10 m)))

/-! ## Region-mask range machinery
(`D.mkrngs`, `D.makerangebools`, `tuples_2_bool`) -/

/-- numpy elementwise `m ^ np.roll(m, 1)`: sample i xored with its cyclic
predecessor (`np.roll(m, 1) = [m[n-1], m[0], ..., m[n-2]]`; `zipWith`
truncates the second list to length n). -/
def xorRoll1 (m : List Bool) : List Bool := m.zipWith xor (m.getLastD false :: m)

/-- numpy elementwise `m ^ np.roll(m, -1)`: sample i xored with its cyclic
successor. -/
def xorRollm1 (m : List Bool) : List Bool := m.zipWith xor (m.tail ++ [m.headD false])

/-- numpy boolean-mask selection `t[mask]` (in increasing index order). -/
def maskSelect (t : List α) (m : List Bool) : List α :=
  (t.zip m).filterMap (fun p => if p.2 then some p.1 else none)

/-- `np.reshape(r, [r.size // 2, 2])` for flat lists of even length:
consecutive pairs.  (All uses below have even length; numpy raises on odd.) -/
def chunk2 : List α → List (α × α)
  | a :: b :: r => (a, b) :: chunk2 r
  | _ => []

/-- `mask[[0, -1]] = False`: force the first and last samples False. -/
def clearEnds (m : List Bool) : List Bool := (m.set 0 false).set (m.length - 1) false

/-- `tuples_2_bool` (helpers.py lines 172–194): True where x lies strictly
between the limits of some tuple (`out[(x > l) & (x < u)] = True`). -/
def tuples_2_bool (tuples : List (ℚ × ℚ)) (x : List ℚ) : List Bool :=
  x.map (fun xi => tuples.any (fun p => decide (p.1 < xi) && decide (xi < p.2)))

/-- The signal half of `D.mkrngs` (latools.py lines 1892–1894): clear the edge
samples, mark `sig ^ np.roll(sig, 1)`, select the marked times, pair them. -/
def sigRng (m : List Bool) (t : List ℚ) : List (ℚ × ℚ) :=
  chunk2 (maskSelect t (xorRoll1 (clearEnds m)))

/-- Mask-to-ranges-to-mask round trip in the signal convention: `mkrngs`
followed by `makerangebools` (latools.py line 1974, via `tuples_2_bool`). -/
def sigRoundtrip (m : List Bool) (t : List ℚ) : List Bool :=
  tuples_2_bool (sigRng m t) t

/-! Proof-side view of the mark computation: a two-state scan recording the
positions where the mask changes value. -/

/-- Positions (from `idx`) where the list changes value, the value before the
list being `prev`. -/
def chg (prev : Bool) : List Bool → ℕ → List ℕ
  | [], _ => []
  | b :: bs, i => if b = prev then chg b bs (i + 1) else i :: chg b bs (i + 1)

/-- Ascending positions (from `i`) of the True entries of a boolean list. -/
def trueIdxFrom : List Bool → ℕ → List ℕ
  | [], _ => []
  | b :: bs, i => if b then i :: trueIdxFrom bs (i + 1) else trueIdxFrom bs (i + 1)

/-- Membership of j strictly inside one of a list of index pairs. -/
def insidePairs (ps : List (ℕ × ℕ)) (j : ℕ) : Bool :=
  ps.any (fun p => decide (p.1 < j) && decide (j < p.2))

/-- xor with the value of the preceding entry (`prev` before the head). -/
def xorWithPrev (prev : Bool) (l : List Bool) : List Bool := l.zipWith xor (prev :: l)

theorem xorRoll1_eq_xorWithPrev (m : List Bool) :
    xorRoll1 m = xorWithPrev (m.getLastD false) m := rfl

theorem trueIdxFrom_xorWithPrev (l : List Bool) : ∀ (prev : Bool) (i : ℕ),
    trueIdxFrom (xorWithPrev prev l) i = chg prev l i := by
  induction l with
  | nil => intro prev i; rfl
  | cons b bs ih =>
    intro prev i
    have hx : xorWithPrev prev (b :: bs) = xor b prev :: xorWithPrev b bs := rfl
    rw [hx]
    cases b <;> cases prev <;> simp [trueIdxFrom, chg, ih]

theorem trueIdxFrom_succ (l : List Bool) : ∀ (i : ℕ),
    trueIdxFrom l (i + 1) = (trueIdxFrom l i).map (· + 1) := by
  induction l with
  | nil => intro i; rfl
  | cons b bs ih =>
    intro i
    cases b <;> simp [trueIdxFrom, ih]

theorem maskSelect_eq_map (l : List Bool) : ∀ (t : List ℚ), t.length = l.length →
    maskSelect t l = (trueIdxFrom l 0).map (fun i => t.getD i 0) := by
  induction l with
  | nil => intro t _; simp [maskSelect, trueIdxFrom]
  | cons b bs ih =>
    intro t hlen
    cases t with
    | nil => simp at hlen
    | cons x ts =>
      simp only [List.length_cons, Nat.succ.injEq] at hlen
      have hsel : maskSelect (x :: ts) (b :: bs)
          = if b then x :: maskSelect ts bs else maskSelect ts bs := by
        cases b <;> simp [maskSelect]
      rw [hsel, ih ts hlen]
      cases b <;>
        simp [trueIdxFrom, trueIdxFrom_succ, List.map_map, Function.comp,
          List.getD_cons_succ, List.getD_cons_zero]

theorem chunk2_map (f : α → β) : ∀ (xs : List α),
    chunk2 (xs.map f) = (chunk2 xs).map (fun p => (f p.1, f p.2))
  | [] => rfl
  | [a] => rfl
  | a :: b :: r => by simp [chunk2, chunk2_map f r]

theorem insidePairs_cons (a b : ℕ) (ps : List (ℕ × ℕ)) (j : ℕ) :
    insidePairs ((a, b) :: ps) j = ((decide (a < j) && decide (j < b)) || insidePairs ps j) := by
  simp [insidePairs]

theorem getLast?_false_of_ne_true {l : List Bool} (hne : l ≠ [])
    (h : l.getLast? ≠ some true) : l.getLast? = some false := by
  cases hq : l.getLast? with
  | none => exact absurd (List.getLast?_eq_none_iff.mp hq) hne
  | some v =>
    cases v with
    | true => exact absurd hq h
    | false => rfl

/-- Coverage characterization of the paired change-marks: for a scan started
in state `false`, index j lies strictly inside one of the consecutive pairs of
marks iff the mask is True at j and at j−1; for a scan started in state `true`
with a pending opening mark `a < idx`, the region `(a, idx)` is additionally
open.  Requires the trailing value of the list to be `false` (there is always
a closing mark), which `clearEnds` guarantees in all uses. -/
theorem covFT (l : List Bool) :
    (∀ idx j, l.getLast? ≠ some true →
      (insidePairs (chunk2 (chg false l idx)) j = true ↔
        idx < j ∧ l.getD (j - idx) false = true ∧ l.getD (j - idx - 1) false = true)) ∧
    (∀ a idx j, a < idx → l.getLast? = some false →
      (insidePairs (chunk2 (a :: chg true l idx)) j = true ↔
        a < j ∧ (j < idx ∨ (l.getD (j - idx) false = true ∧
          l.getD (j - idx - 1) false = true)))) := by
  induction l with
  | nil =>
    constructor
    · intro idx j _
      simp [chg, chunk2, insidePairs, List.getD]
    · intro a idx j _ h
      simp at h
  | cons b bs ih =>
    obtain ⟨ihF, ihT⟩ := ih
    constructor
    · intro idx j hlast
      cases b
      · -- head false in state false: no mark
        have hbs : bs.getLast? ≠ some true := by
          cases bs with
          | nil => simp
          | cons c cs => simpa [List.getLast?_cons_cons] using hlast
        rw [show chg false (false :: bs) idx = chg false bs (idx + 1) from by simp [chg]]
        rw [ihF (idx + 1) j hbs]
        by_cases h1 : j ≤ idx
        · constructor
          · rintro ⟨hj, _⟩; omega
          · rintro ⟨hj, _⟩; omega
        · by_cases h2 : j = idx + 1
          · subst h2
            have e1 : idx + 1 - idx - 1 = 0 := by omega
            rw [e1, List.getD_cons_zero]
            constructor
            · rintro ⟨hj, _⟩; omega
            · rintro ⟨_, _, hc⟩; exact absurd hc (by simp)
          · obtain ⟨k, rfl⟩ : ∃ k, j = idx + 2 + k := ⟨j - idx - 2, by omega⟩
            have e1 : idx + 2 + k - (idx + 1) = k + 1 := by omega
            have e2 : idx + 2 + k - (idx + 1) - 1 = k := by omega
            have e3 : idx + 2 + k - idx = k + 2 := by omega
            have e4 : idx + 2 + k - idx - 1 = k + 1 := by omega
            rw [e2, e1, e4, e3, List.getD_cons_succ, List.getD_cons_succ]
            constructor
            · rintro ⟨_, hb, hc⟩; exact ⟨by omega, hb, hc⟩
            · rintro ⟨_, hb, hc⟩; exact ⟨by omega, hb, hc⟩
      · -- head true in state false: opening mark at idx
        have hbne : bs ≠ [] := by
          rintro rfl; simp at hlast
        have hbs : bs.getLast? = some false := by
          apply getLast?_false_of_ne_true hbne
          cases bs with
          | nil => exact absurd rfl hbne
          | cons c cs => simpa [List.getLast?_cons_cons] using hlast
        rw [show chg false (true :: bs) idx = idx :: chg true bs (idx + 1) from by simp [chg]]
        rw [ihT idx (idx + 1) j (by omega) hbs]
        by_cases h1 : j ≤ idx
        · constructor
          · rintro ⟨hj, _⟩; omega
          · rintro ⟨hj, _⟩; omega
        · by_cases h2 : j = idx + 1
          · subst h2
            have e1 : idx + 1 - (idx + 1) = 0 := by omega
            have e2 : idx + 1 - (idx + 1) - 1 = 0 := by omega
            have e3 : idx + 1 - idx = 1 := by omega
            have e4 : idx + 1 - idx - 1 = 0 := by omega
            rw [e2, e1, e4, e3, List.getD_cons_succ, List.getD_cons_zero]
            constructor
            · rintro ⟨hj, hd⟩
              rcases hd with hd | ⟨hb, _⟩
              · omega
              · exact ⟨by omega, hb, rfl⟩
            · rintro ⟨hj, hb, _⟩
              exact ⟨by omega, Or.inr ⟨hb, hb⟩⟩
          · obtain ⟨k, rfl⟩ : ∃ k, j = idx + 2 + k := ⟨j - idx - 2, by omega⟩
            have e1 : idx + 2 + k - (idx + 1) = k + 1 := by omega
            have e2 : idx + 2 + k - (idx + 1) - 1 = k := by omega
            have e3 : idx + 2 + k - idx = k + 2 := by omega
            have e4 : idx + 2 + k - idx - 1 = k + 1 := by omega
            rw [e2, e1, e4, e3, List.getD_cons_succ, List.getD_cons_succ]
            constructor
            · rintro ⟨hj, hd⟩
              rcases hd with hd | ⟨hb, hc⟩
              · omega
              · exact ⟨by omega, hb, hc⟩
            · rintro ⟨hj, hb, hc⟩
              exact ⟨by omega, Or.inr ⟨hb, hc⟩⟩
    · intro a idx j ha hlast
      cases b
      · -- head false in state true: closing mark at idx
        have hbs : bs.getLast? ≠ some true := by
          cases bs with
          | nil => simp
          | cons c cs =>
            rw [List.getLast?_cons_cons] at hlast
            simp [List.getLast?_cons_cons, hlast]
        rw [show chg true (false :: bs) idx = idx :: chg false bs (idx + 1) from by
          simp [chg]]
        rw [show chunk2 (a :: idx :: chg false bs (idx + 1))
            = (a, idx) :: chunk2 (chg false bs (idx + 1)) from rfl]
        rw [insidePairs_cons]
        simp only [Bool.or_eq_true, Bool.and_eq_true, decide_eq_true_eq]
        rw [ihF (idx + 1) j hbs]
        by_cases h1 : j < idx
        · have e0 : ¬ (idx + 1 < j) := by omega
          constructor
          · rintro (⟨hj, _⟩ | ⟨hj, _⟩)
            · exact ⟨hj, Or.inl h1⟩
            · omega
          · rintro ⟨hj, _⟩; exact Or.inl ⟨hj, h1⟩
        · by_cases h2 : j = idx
          · subst h2
            have e3 : j - j = 0 := by omega
            rw [e3, List.getD_cons_zero]
            constructor
            · rintro (⟨_, hj⟩ | ⟨hj, _⟩) <;> omega
            · rintro ⟨_, hd⟩
              rcases hd with hd | ⟨hb, _⟩
              · omega
              · exact absurd hb (by simp)
          · by_cases h3 : j = idx + 1
            · subst h3
              have e3 : idx + 1 - idx = 1 := by omega
              have e4 : idx + 1 - idx - 1 = 0 := by omega
              rw [e4, e3, List.getD_cons_succ, List.getD_cons_zero]
              constructor
              · rintro (⟨_, hj⟩ | ⟨hj, _⟩) <;> omega
              · rintro ⟨_, hd⟩
                rcases hd with hd | ⟨_, hc⟩
                · omega
                · exact absurd hc (by simp)
            · obtain ⟨k, rfl⟩ : ∃ k, j = idx + 2 + k := ⟨j - idx - 2, by omega⟩
              have e1 : idx + 2 + k - (idx + 1) = k + 1 := by omega
              have e2 : idx + 2 + k - (idx + 1) - 1 = k := by omega
              have e3 : idx + 2 + k - idx = k + 2 := by omega
              have e4 : idx + 2 + k - idx - 1 = k + 1 := by omega
              rw [e2, e1, e4, e3, List.getD_cons_succ, List.getD_cons_succ]
              constructor
              · rintro (⟨_, hj⟩ | ⟨_, hb, hc⟩)
                · omega
                · exact ⟨by omega, Or.inr ⟨hb, hc⟩⟩
              · rintro ⟨_, hd⟩
                rcases hd with hd | ⟨hb, hc⟩
                · omega
                · exact Or.inr ⟨by omega, hb, hc⟩
      · -- head true in state true: run continues
        have hbne : bs ≠ [] := by
          rintro rfl; simp at hlast
        have hbs : bs.getLast? = some false := by
          cases bs with
          | nil => exact absurd rfl hbne
          | cons c cs => simpa [List.getLast?_cons_cons] using hlast
        rw [show chg true (true :: bs) idx = chg true bs (idx + 1) from by simp [chg]]
        rw [ihT a (idx + 1) j (by omega) hbs]
        by_cases h1 : j < idx
        · constructor
          · rintro ⟨hj, _⟩; exact ⟨hj, Or.inl h1⟩
          · rintro ⟨hj, _⟩; exact ⟨hj, Or.inl (by omega)⟩
        · by_cases h2 : j = idx
          · subst h2
            have e3 : j - j = 0 := by omega
            have e4 : j - j - 1 = 0 := by omega
            rw [e4, e3, List.getD_cons_zero]
            constructor
            · rintro ⟨hj, _⟩
              exact ⟨hj, Or.inr ⟨rfl, rfl⟩⟩
            · rintro ⟨hj, _⟩
              exact ⟨hj, Or.inl (by omega)⟩
          · by_cases h3 : j = idx + 1
            · subst h3
              have e1 : idx + 1 - (idx + 1) = 0 := by omega
              have e2 : idx + 1 - (idx + 1) - 1 = 0 := by omega
              have e3 : idx + 1 - idx = 1 := by omega
              have e4 : idx + 1 - idx - 1 = 0 := by omega
              rw [e2, e1, e4, e3, List.getD_cons_succ, List.getD_cons_zero]
              constructor
              · rintro ⟨hj, hd⟩
                rcases hd with hd | ⟨hb, _⟩
                · omega
                · exact ⟨hj, Or.inr ⟨hb, rfl⟩⟩
              · rintro ⟨hj, hd⟩
                rcases hd with hd | ⟨hb, _⟩
                · omega
                · exact ⟨hj, Or.inr ⟨hb, hb⟩⟩
            · obtain ⟨k, rfl⟩ : ∃ k, j = idx + 2 + k := ⟨j - idx - 2, by omega⟩
              have e1 : idx + 2 + k - (idx + 1) = k + 1 := by omega
              have e2 : idx + 2 + k - (idx + 1) - 1 = k := by omega
              have e3 : idx + 2 + k - idx = k + 2 := by omega
              have e4 : idx + 2 + k - idx - 1 = k + 1 := by omega
              rw [e2, e1, e4, e3, List.getD_cons_succ, List.getD_cons_succ]
              constructor
              · rintro ⟨hj, hd⟩
                rcases hd with hd | ⟨hb, hc⟩
                · omega
                · exact ⟨hj, Or.inr ⟨hb, hc⟩⟩
              · rintro ⟨hj, hd⟩
                rcases hd with hd | ⟨hb, hc⟩
                · omega
                · exact ⟨hj, Or.inr ⟨hb, hc⟩⟩

theorem any_map_general (f : α → β) (l : List α) (p : β → Bool) :
    (l.map f).any p = l.any (fun a => p (f a)) := by
  induction l with
  | nil => rfl
  | cons a l ih => simp [ih]

theorem any_congr_mem {l : List α} {p q : α → Bool} (h : ∀ a ∈ l, p a = q a) :
    l.any p = l.any q := by
  induction l with
  | nil => rfl
  | cons a l ih =>
    simp only [List.any_cons, h a (List.mem_cons_self a l),
      ih (fun x hx => h x (List.mem_cons_of_mem a hx))]

theorem length_clearEnds (m : List Bool) : (clearEnds m).length = m.length := by
  simp [clearEnds]

theorem getLast?_clearEnds {m : List Bool} (h : m ≠ []) :
    (clearEnds m).getLast? = some false := by
  have hpos : 0 < m.length := List.length_pos.mpr h
  rw [List.getLast?_eq_getElem?, length_clearEnds, clearEnds, List.getElem?_set]
  simp only [List.length_set, if_true]
  rw [if_pos (by omega)]

theorem chg_mem_bounds (l : List Bool) : ∀ (prev : Bool) (idx x : ℕ),
    x ∈ chg prev l idx → idx ≤ x ∧ x < idx + l.length := by
  induction l with
  | nil => intro prev idx x hx; simp [chg] at hx
  | cons b bs ih =>
    intro prev idx x hx
    rw [show chg prev (b :: bs) idx
        = if b = prev then chg b bs (idx + 1) else idx :: chg b bs (idx + 1) from rfl] at hx
    by_cases hb : b = prev
    · rw [if_pos hb] at hx
      have := ih b (idx + 1) x hx
      simp only [List.length_cons]
      omega
    · rw [if_neg hb] at hx
      rcases List.mem_cons.mp hx with rfl | hx
      · simp only [List.length_cons]
        omega
      · have := ih b (idx + 1) x hx
        simp only [List.length_cons]
        omega

theorem chunk2_mem : ∀ (xs : List α) (p : α × α), p ∈ chunk2 xs → p.1 ∈ xs ∧ p.2 ∈ xs
  | [], p, hp => by simp [chunk2] at hp
  | [a], p, hp => by simp [chunk2] at hp
  | a :: b :: r, p, hp => by
    rw [show chunk2 (a :: b :: r) = (a, b) :: chunk2 r from rfl] at hp
    rcases List.mem_cons.mp hp with rfl | hp
    · exact ⟨List.mem_cons_self _ _, List.mem_cons_of_mem _ (List.mem_cons_self _ _)⟩
    · have := chunk2_mem r p hp
      exact ⟨List.mem_cons_of_mem _ (List.mem_cons_of_mem _ this.1),
        List.mem_cons_of_mem _ (List.mem_cons_of_mem _ this.2)⟩

theorem pairwise_getD_lt (t : List ℚ) (ht : t.Pairwise (· < ·)) (i j : ℕ)
    (hij : i < j) (hj : j < t.length) : t.getD i 0 < t.getD j 0 := by
  have hi : i < t.length := lt_trans hij hj
  rw [List.getD_eq_getElem?_getD, List.getD_eq_getElem?_getD,
    List.getElem?_eq_getElem hi, List.getElem?_eq_getElem hj]
  exact List.pairwise_iff_getElem.mp ht i j hi hj hij

theorem getD_lt_iff (t : List ℚ) (ht : t.Pairwise (· < ·)) (i j : ℕ)
    (hi : i < t.length) (hj : j < t.length) :
    (t.getD i 0 < t.getD j 0 ↔ i < j) := by
  constructor
  · intro h
    by_contra hc
    rcases Nat.lt_or_ge j i with hji | hji
    · exact absurd (pairwise_getD_lt t ht j i hji hi) (not_lt.mpr (le_of_lt h))
    · have : j = i := by omega
      subst this
      exact absurd h (lt_irrefl _)
  · intro h
    exact pairwise_getD_lt t ht i j h hj

/-- Characterization of the signal-convention mask round trip: the
reconstructed mask is True at i iff the edge-cleared mask is True at i and at
i−1.  In particular every first sample of a contiguous True run is dropped,
in addition to the forced-False edge samples. -/
theorem sigRoundtrip_characterization (m : List Bool) (t : List ℚ)
    (hlen : t.length = m.length) (ht : t.Pairwise (· < ·)) (i : ℕ) :
    ((sigRoundtrip m t).getD i false = true ↔
      0 < i ∧ (clearEnds m).getD i false = true ∧
        (clearEnds m).getD (i - 1) false = true) := by
  rcases eq_or_ne m [] with rfl | hm
  · have ht0 : t = [] := List.length_eq_zero.mp hlen
    subst ht0
    simp [sigRoundtrip, tuples_2_bool, clearEnds, List.getD]
  · have hMlast : (clearEnds m).getLast? = some false := getLast?_clearEnds hm
    have hMlen : (clearEnds m).length = m.length := length_clearEnds m
    have hxor : xorRoll1 (clearEnds m) = xorWithPrev false (clearEnds m) := by
      rw [xorRoll1_eq_xorWithPrev, List.getLastD_eq_getLast?, hMlast]
      rfl
    have hxlen : (xorWithPrev false (clearEnds m)).length = (clearEnds m).length := by
      simp only [xorWithPrev, List.length_zipWith, List.length_cons]
      omega
    have hsel : maskSelect t (xorRoll1 (clearEnds m))
        = (chg false (clearEnds m) 0).map (fun k => t.getD k 0) := by
      rw [hxor, maskSelect_eq_map _ t (by rw [hxlen, hMlen, hlen]),
        trueIdxFrom_xorWithPrev]
    have hrng : sigRng m t
        = (chunk2 (chg false (clearEnds m) 0)).map
            (fun p => (t.getD p.1 0, t.getD p.2 0)) := by
      rw [sigRng, hsel, chunk2_map]
    by_cases hi : i < t.length
    · have hgetD : (sigRoundtrip m t).getD i false
          = (sigRng m t).any (fun p =>
              decide (p.1 < t.getD i 0) && decide (t.getD i 0 < p.2)) := by
        simp only [sigRoundtrip, tuples_2_bool, List.getD_eq_getElem?_getD,
          List.getElem?_map, List.getElem?_eq_getElem hi]
        rfl
      rw [hgetD, hrng, any_map_general]
      have hcong : ∀ q ∈ chunk2 (chg false (clearEnds m) 0),
          (decide (t.getD q.1 0 < t.getD i 0) && decide (t.getD i 0 < t.getD q.2 0))
            = (decide (q.1 < i) && decide (i < q.2)) := by
        intro q hq
        obtain ⟨h1, h2⟩ := chunk2_mem _ q hq
        have hb1 := chg_mem_bounds _ false 0 q.1 h1
        have hb2 := chg_mem_bounds _ false 0 q.2 h2
        have hq1 : q.1 < t.length := by rw [hlen, ← hMlen]; omega
        have hq2 : q.2 < t.length := by rw [hlen, ← hMlen]; omega
        rw [show (decide (t.getD q.1 0 < t.getD i 0) : Bool)
            = decide (q.1 < i) from by
          simp only [decide_eq_decide]
          exact getD_lt_iff t ht q.1 i hq1 hi]
        rw [show (decide (t.getD i 0 < t.getD q.2 0) : Bool)
            = decide (i < q.2) from by
          simp only [decide_eq_decide]
          exact getD_lt_iff t ht i q.2 hi hq2]
      rw [any_congr_mem hcong]
      have hcov := (covFT (clearEnds m)).1 0 i (by rw [hMlast]; simp)
      rw [show insidePairs (chunk2 (chg false (clearEnds m) 0)) i
          = (chunk2 (chg false (clearEnds m) 0)).any
              (fun p => decide (p.1 < i) && decide (i < p.2)) from rfl] at hcov
      rw [hcov]
      simp only [Nat.sub_zero]
    · have hout : t.length ≤ i := le_of_not_lt hi
      have h1 : (sigRoundtrip m t).getD i false = false := by
        apply List.getD_eq_default
        simp only [sigRoundtrip, tuples_2_bool, List.length_map]
        exact hout
      have h2 : (clearEnds m).getD i false = false := by
        apply List.getD_eq_default
        rw [hMlen, ← hlen]
        exact hout
      rw [h1, h2]
      simp

/-! ## The autorange mask pipeline (`D.autorange`, latools.py lines 1779–1876)

The numeric analysis (kde, gradient smoothing, gaussian fits) is abstracted:
`thr` stands for the step-1 threshold `1.2 * 10**mins[0]` and `tran` for the
list of fitted transition time intervals (the `tran` list built in lines
1803–1842).  Every mask update, range extraction and the safety pass are
embedded exactly as written. -/

/-- `mask[(Time > t0) & (Time < t1)] = False` (latools.py lines 1845–1846). -/
def clearOpenInterval (time : List ℚ) (p : ℚ × ℚ) (m : List Bool) : List Bool :=
  time.zipWith (fun ti b => b && !(decide (p.1 < ti) && decide (ti < p.2))) m

/-- `mask[(Time >= lo) & (Time <= hi)] = False` (latools.py lines 1862–1863). -/
def clearClosedInterval (time : List ℚ) (lo hi : ℚ) (m : List Bool) : List Bool :=
  time.zipWith (fun ti b => b && !(decide (lo ≤ ti) && decide (ti ≤ hi))) m

/-- Line 1792: `bkg = v < 1.2 * 10**mins[0]` with the threshold abstracted. -/
def bkgInit (v : List ℚ) (thr : ℚ) : List Bool := v.map (fun w => decide (w < thr))

/-- Lines 1844–1846: remove every fitted transition interval from a mask. -/
def removeTrans (time : List ℚ) (tran : List (ℚ × ℚ)) (m : List Bool) : List Bool :=
  tran.foldl (fun m p => clearOpenInterval time p m) m

/-- Line 1848: `self.trn = ~self.bkg & ~self.sig`. -/
def mkTrn (bkg sig : List Bool) : List Bool := bkg.zipWith (fun b s => !b && !s) sig

/-- The background mask after step 1 and transition removal. -/
def bkgStage1 (v time : List ℚ) (thr : ℚ) (tran : List (ℚ × ℚ)) : List Bool :=
  removeTrans time tran (bkgInit v thr)

/-- The signal mask (`sig = ~bkg`, line 1796) after transition removal. -/
def sigStage1 (v time : List ℚ) (thr : ℚ) (tran : List (ℚ × ℚ)) : List Bool :=
  removeTrans time tran ((bkgInit v thr).map (fun b => !b))

/-- The transition mask computed at line 1848. -/
def trnStage1 (v time : List ℚ) (thr : ℚ) (tran : List (ℚ × ℚ)) : List Bool :=
  mkTrn (bkgStage1 v time thr tran) (sigStage1 v time thr tran)

/-- Lines 1854–1857: mean transition width `np.mean(np.diff(tr, axis=1))`;
`np.mean` of an empty array is NaN. -/
def trwOf (tr : List (ℚ × ℚ)) : Option ℚ :=
  if tr.length = 0 then none
  else some ((tr.map (fun p => p.2 - p.1)).sum / (tr.length : ℚ))

/-- `rng.flat`: the range pairs flattened in order. -/
def flatRng (r : List (ℚ × ℚ)) : List ℚ :=
  r.foldr (fun p acc => p.1 :: p.2 :: acc) []

/-- One iteration of the safety pass (lines 1860–1864): if any flattened
signal-range limit satisfies `sigrng - b < 0.3 * trw`, clear
`[b - trw/2, b + trw/2]` from both masks and set the `corr` flag.  A NaN
`trw` makes the comparison False, so nothing is cleared. -/
def safetyStep (time : List ℚ) (sigflat : List ℚ) (trw : Option ℚ)
    (s : List Bool × List Bool × Bool) (b : ℚ) : List Bool × List Bool × Bool :=
  match trw with
  | none => s
  | some w =>
    if sigflat.any (fun q => decide (q - b < 3 / 10 * w)) then
      (clearClosedInterval time (b - w / 2) (b + w / 2) s.1,
       clearClosedInterval time (b - w / 2) (b + w / 2) s.2.1, true)
  else s

/-- Lines 1859–1867: run the safety pass over the flattened background range
limits; if anything was corrected, `mkrngs` runs again and re-clears the edge
samples of all three masks (it does not recompute `trn`). -/
def autorangeFinal (time : List ℚ) (trw : Option ℚ) (sigflat bkgflat : List ℚ)
    (bkg2 sig2 trn2 : List Bool) : List Bool × List Bool × List Bool :=
  let s2 := bkgflat.foldl (safetyStep time sigflat trw) (bkg2, sig2, false)
  if s2.2.2 then (clearEnds s2.1, clearEnds s2.2.1, clearEnds trn2)
  else (s2.1, s2.2.1, trn2)

/-- The mask bookkeeping of `D.autorange` (lines 1792–1876), composed from the
stages above; the first `mkrngs` call (line 1850) clears the edge samples of
all three masks and produces `bkgrng` (roll −1 convention) and `sigrng`
(roll +1 convention), whose flattened limits feed the safety pass.
Returns the final `(bkg, sig, trn)`. -/
def autorangeMasks (v time : List ℚ) (thr : ℚ) (tran : List (ℚ × ℚ)) :
    List Bool × List Bool × List Bool :=
  autorangeFinal time
    (trwOf (chunk2 (maskSelect time (xorRoll1 (clearEnds (trnStage1 v time thr tran))))))
    (flatRng (chunk2 (maskSelect time (xorRoll1 (clearEnds (sigStage1 v time thr tran))))))
    (flatRng (chunk2 (maskSelect time (xorRollm1 (clearEnds (bkgStage1 v time thr tran))))))
    (clearEnds (bkgStage1 v time thr tran))
    (clearEnds (sigStage1 v time thr tran))
    (clearEnds (trnStage1 v time thr tran))

/-! Pointwise inclusion machinery: every mask update in the pipeline only
turns samples off. -/

/-- Pointwise inclusion of boolean masks. -/
def SubM (a b : List Bool) : Prop := ∀ i, a.getD i false = true → b.getD i false = true

theorem SubM.refl (a : List Bool) : SubM a a := fun _ h => h

theorem SubM.trans {a b c : List Bool} (h1 : SubM a b) (h2 : SubM b c) : SubM a c :=
  fun i h => h2 i (h1 i h)

theorem SubM.eq_false {a b : List Bool} (h : SubM a b) {i : ℕ}
    (hb : b.getD i false = false) : a.getD i false = false := by
  cases ha : a.getD i false
  · rfl
  · rw [h i ha] at hb
    simp at hb

theorem getD_zipWith_andlike (g : ℚ → Bool → Bool)
    (hg : ∀ t b, g t b = true → b = true) (time : List ℚ) (m : List Bool) (i : ℕ)
    (h : (time.zipWith g m).getD i false = true) : m.getD i false = true := by
  rw [List.getD_eq_getElem?_getD, List.getElem?_zipWith] at h
  rcases htime : time[i]? with _ | ti
  · rw [htime] at h
    simp at h
  · rcases hm : m[i]? with _ | b
    · rw [htime, hm] at h
      simp at h
    · rw [htime, hm] at h
      simp only [Option.getD_some] at h
      rw [List.getD_eq_getElem?_getD, hm, Option.getD_some]
      exact hg ti b h

theorem subM_clearOpen (time : List ℚ) (p : ℚ × ℚ) (m : List Bool) :
    SubM (clearOpenInterval time p m) m := by
  intro i h
  exact getD_zipWith_andlike _ (fun t b hb => by
    cases b
    · simp at hb
    · rfl) time m i h

theorem subM_clearClosed (time : List ℚ) (lo hi : ℚ) (m : List Bool) :
    SubM (clearClosedInterval time lo hi m) m := by
  intro i h
  exact getD_zipWith_andlike _ (fun t b hb => by
    cases b
    · simp at hb
    · rfl) time m i h

theorem subM_set_false (m : List Bool) (k : ℕ) : SubM (m.set k false) m := by
  intro i h
  rw [List.getD_eq_getElem?_getD, List.getElem?_set] at h
  by_cases hk : k = i
  · rw [if_pos hk] at h
    by_cases hlt : k < m.length
    · rw [if_pos hlt] at h
      simp at h
    · rw [if_neg hlt] at h
      simp at h
  · rw [if_neg hk] at h
    rw [List.getD_eq_getElem?_getD]
    exact h

theorem subM_clearEnds (m : List Bool) : SubM (clearEnds m) m :=
  (subM_set_false _ _).trans (subM_set_false _ _)

theorem subM_removeTrans (time : List ℚ) (tran : List (ℚ × ℚ)) :
    ∀ (m : List Bool), SubM (removeTrans time tran m) m := by
  induction tran with
  | nil => intro m; exact SubM.refl m
  | cons p ps ih =>
    intro m
    rw [show removeTrans time (p :: ps) m
        = removeTrans time ps (clearOpenInterval time p m) from rfl]
    exact (ih _).trans (subM_clearOpen time p m)

theorem bkgInit_not_disj (l : List Bool) (i : ℕ) (h : l.getD i false = true) :
    (l.map (fun b => !b)).getD i false = false := by
  rw [List.getD_eq_getElem?_getD] at h ⊢
  rw [List.getElem?_map]
  rcases hl : l[i]? with _ | b
  · rw [hl] at h
    simp at h
  · rw [hl] at h
    simp only [Option.getD_some] at h
    simp [h]

theorem mkTrn_true (bkg sig : List Bool) (i : ℕ)
    (h : (mkTrn bkg sig).getD i false = true) :
    bkg.getD i false = false ∧ sig.getD i false = false := by
  rw [mkTrn, List.getD_eq_getElem?_getD, List.getElem?_zipWith] at h
  rcases hb : bkg[i]? with _ | b
  · rw [hb] at h
    simp at h
  · rcases hs : sig[i]? with _ | s
    · rw [hb, hs] at h
      simp at h
    · rw [hb, hs] at h
      simp only [Option.getD_some, Bool.and_eq_true, Bool.not_eq_true'] at h
      rw [List.getD_eq_getElem?_getD, hb, List.getD_eq_getElem?_getD, hs]
      simp [h.1, h.2]

theorem safety_foldl_sub (time : List ℚ) (sigflat : List ℚ) (trw : Option ℚ) :
    ∀ (bs : List ℚ) (st : List Bool × List Bool × Bool),
      SubM (bs.foldl (safetyStep time sigflat trw) st).1 st.1 ∧
      SubM (bs.foldl (safetyStep time sigflat trw) st).2.1 st.2.1 := by
  intro bs
  induction bs with
  | nil => intro st; exact ⟨SubM.refl _, SubM.refl _⟩
  | cons b bs ih =>
    intro st
    have hstep : SubM (safetyStep time sigflat trw st b).1 st.1 ∧
        SubM (safetyStep time sigflat trw st b).2.1 st.2.1 := by
      cases trw with
      | none => exact ⟨SubM.refl _, SubM.refl _⟩
      | some w =>
        by_cases hcond : sigflat.any (fun q => decide (q - b < 3 / 10 * w))
        · simp only [safetyStep, if_pos hcond]
          exact ⟨subM_clearClosed _ _ _ _, subM_clearClosed _ _ _ _⟩
        · simp only [safetyStep, if_neg hcond]
          exact ⟨SubM.refl _, SubM.refl _⟩
    rw [List.foldl_cons]
    have hrest := ih (safetyStep time sigflat trw st b)
    exact ⟨hrest.1.trans hstep.1, hrest.2.trans hstep.2⟩

theorem autorangeFinal_pairwise (time : List ℚ) (trw : Option ℚ)
    (sigflat bkgflat : List ℚ) (bkg2 sig2 trn2 : List Bool)
    (hdisj : ∀ i, ¬(bkg2.getD i false = true ∧ sig2.getD i false = true))
    (htrn : ∀ i, trn2.getD i false = true →
      bkg2.getD i false = false ∧ sig2.getD i false = false) (i : ℕ) :
    ¬((autorangeFinal time trw sigflat bkgflat bkg2 sig2 trn2).1.getD i false = true ∧
      (autorangeFinal time trw sigflat bkgflat bkg2 sig2 trn2).2.1.getD i false = true) ∧
    ((autorangeFinal time trw sigflat bkgflat bkg2 sig2 trn2).2.2.getD i false = true →
      (autorangeFinal time trw sigflat bkgflat bkg2 sig2 trn2).1.getD i false = false ∧
      (autorangeFinal time trw sigflat bkgflat bkg2 sig2 trn2).2.1.getD i false = false) := by
  have hsub := safety_foldl_sub time sigflat trw bkgflat (bkg2, sig2, false)
  unfold autorangeFinal
  by_cases hc : (bkgflat.foldl (safetyStep time sigflat trw) (bkg2, sig2, false)).2.2
  · simp only [if_pos hc]
    constructor
    · rintro ⟨h1, h2⟩
      exact hdisj i ⟨hsub.1 i (subM_clearEnds _ i h1), hsub.2 i (subM_clearEnds _ i h2)⟩
    · intro h
      obtain ⟨hb0, hs0⟩ := htrn i (subM_clearEnds _ i h)
      exact ⟨((subM_clearEnds _).trans hsub.1).eq_false hb0,
        ((subM_clearEnds _).trans hsub.2).eq_false hs0⟩
  · simp only [if_neg hc]
    constructor
    · rintro ⟨h1, h2⟩
      exact hdisj i ⟨hsub.1 i h1, hsub.2 i h2⟩
    · intro h
      obtain ⟨hb0, hs0⟩ := htrn i h
      exact ⟨hsub.1.eq_false hb0, hsub.2.eq_false hs0⟩

/-! ## Claims C2, C3, C4, C5 -/

/-- C2: `filt.add` followed by `filt.remove` of the same (fresh) name does not
restore the prior registry state: `remove` executes `del self.keys[name]` on
the analyte-keyed `keys` dict, which raises `KeyError`, after the components,
info and params entries have already been deleted.  (Even if `name` were a key
of `keys`, the subsequent `del self.sequence[name]` looks up a string in the
int-keyed `sequence` dict and raises as well.) -/
theorem filt_add_then_remove_raises (st : FiltState) (name : String)
    (mask : List Bool) (inf par : String) (hk : dictGet? st.keys name = none) :
    filtRemove (filtAdd st name mask inf par) name = .error .keyError := by
  obtain ⟨d1, h1⟩ := dictDel_dictSet st.components name mask
  obtain ⟨d2, h2⟩ := dictDel_dictSet st.info name inf
  obtain ⟨d3, h3⟩ := dictDel_dictSet st.params name par
  have h4 : dictDel st.keys name = .error .keyError := dictDel_of_get?_none _ _ hk
  simp only [filtRemove, filtAdd] at *
  simp [h1, h2, h3, h4, Bind.bind, Except.bind]

/-- Witness for C2 at a concrete registry. -/
theorem filt_add_then_remove_raises_witness :
    dictGet? (FiltState.mk 2 ["A"] [] [] [] [] [] 0 [("A", [])]).keys "f0" = none ∧
    filtRemove (filtAdd (FiltState.mk 2 ["A"] [] [] [] [] [] 0 [("A", [])])
      "f0" [true, true] "" "") "f0" = .error .keyError :=
  ⟨rfl, filt_add_then_remove_raises _ "f0" [true, true] "" "" rfl⟩

/-- C3 counterexample: adding a name that is already present does not fail and
does not leave the registry unchanged — the mask is silently overwritten. -/
theorem filt_add_duplicate_counterexample :
    filtAdd (FiltState.mk 2 ["A"] [("f", [true, false])] [("f", "i0")] [("f", "p0")]
        [] [(Sum.inl 0, "f")] 1 [("A", [("f", true)])]) "f" [false, false] "i1" "p1"
      ≠ FiltState.mk 2 ["A"] [("f", [true, false])] [("f", "i0")] [("f", "p0")]
        [] [(Sum.inl 0, "f")] 1 [("A", [("f", true)])] ∧
    dictGet? (filtAdd (FiltState.mk 2 ["A"] [("f", [true, false])] [("f", "i0")]
        [("f", "p0")] [] [(Sum.inl 0, "f")] 1 [("A", [("f", true)])])
        "f" [false, false] "i1" "p1").components "f" = some [false, false] :=
  ⟨fun h => absurd (congrArg FiltState.n h) (by decide), rfl⟩

/-- C3 amended: on a duplicate name, `filt.add` silently overwrites the
existing mask, info and params in place (components count unchanged), appends
a fresh integer-keyed sequence entry, increments `n`, and re-enables the
filter for every analyte.  No error is raised (the method is total). -/
theorem filt_add_duplicate_overwrites (st : FiltState) (name : String)
    (mask : List Bool) (inf par : String)
    (hdup : dictGet? st.components name ≠ none) :
    dictGet? (filtAdd st name mask inf par).components name = some mask ∧
    (filtAdd st name mask inf par).components.length = st.components.length ∧
    (filtAdd st name mask inf par).n = st.n + 1 ∧
    dictGet? (filtAdd st name mask inf par).info name = some inf ∧
    dictGet? (filtAdd st name mask inf par).params name = some par ∧
    dictGet? (filtAdd st name mask inf par).sequence (Sum.inl st.n) = some name ∧
    ∀ a sw, a ∈ st.analytes →
      dictGet? (filtAdd st name mask inf par).switches a = some sw →
      dictGet? sw name = some true := by
  refine ⟨dictGet?_dictSet_self _ _ _, length_dictSet_of_mem _ _ _ hdup, rfl,
    dictGet?_dictSet_self _ _ _, dictGet?_dictSet_self _ _ _,
    dictGet?_dictSet_self _ _ _, ?_⟩
  intro a sw ha hsw
  exact dictGet?_switches_add st.switches st.analytes name a sw ha hsw

/-- Witness for the amended C3 at a concrete registry with a duplicate name. -/
theorem filt_add_duplicate_overwrites_witness :
    dictGet? (FiltState.mk 2 ["A"] [("f", [true, false])] [("f", "i0")] [("f", "p0")]
        [] [(Sum.inl 0, "f")] 1 [("A", [("f", true)])]).components "f" ≠ none ∧
    dictGet? (filtAdd (FiltState.mk 2 ["A"] [("f", [true, false])] [("f", "i0")]
        [("f", "p0")] [] [(Sum.inl 0, "f")] 1 [("A", [("f", true)])])
        "f" [false, false] "i1" "p1").components "f" = some [false, false] :=
  ⟨by decide,
    (filt_add_duplicate_overwrites (FiltState.mk 2 ["A"] [("f", [true, false])]
      [("f", "i0")] [("f", "p0")] [] [(Sum.inl 0, "f")] 1 [("A", [("f", true)])])
      "f" [false, false] "i1" "p1" (by decide)).1⟩

/-- C4: the boolean-True branch of `grab_filt` raises `NameError` for every
registry state and analyte: the source line is `ind = self.make(a)` and the
name `a` is unbound (the parameter is called `analyte`), so the current
switch-state mask `make(analyte)` is never returned. -/
theorem grab_filt_true_raises (st : FiltState) (analyte : Option String) :
    grabFilt st (.bool true) analyte = .error .nameError := rfl

/-- C5: on a trace whose kde has no local minima (a single distribution),
autorange does not return an all-background classification — it raises
`IndexError` at `mins[0]`. -/
theorem autorange_no_minima_raises (x yd v : List ℚ) (pow10 : ℚ → ℚ)
    (h : findmins x yd = []) : autorangeStep1 x yd v pow10 = .error .indexError := by
  simp [autorangeStep1, h]

/-- Witness for C5: a strictly decreasing density (single mode at the left
grid edge) has no interior local minima, and step 1 raises. -/
theorem autorange_no_minima_raises_witness :
    findmins [0, 1, 2] [3, 2, 1] = [] ∧
    autorangeStep1 [0, 1, 2] [3, 2, 1] [5, 10] (fun q => q) = .error .indexError :=
  ⟨by decide, autorange_no_minima_raises _ _ _ _ (by decide)⟩

/-! ## Claims C1 and C7 -/

/-- C1 counterexample: a run whose trace starts and ends in background
(`v = [0,2,2,0]`, threshold 1, no transition fits).  After `mkrngs` forces
the edge samples False, sample 0 belongs to none of the three masks, so
`trn ≠ ¬bkg ∧ ¬sig` and `bkg ∨ sig ∨ trn` does not cover sample 0. -/
theorem autorange_coverage_counterexample :
    autorangeMasks [0, 2, 2, 0] [0, 1, 2, 3] 1 []
      = ([false, false, false, false], [false, true, true, false],
         [false, false, false, false]) ∧
    ¬((autorangeMasks [0, 2, 2, 0] [0, 1, 2, 3] 1 []).2.2.getD 0 false
        = (!(autorangeMasks [0, 2, 2, 0] [0, 1, 2, 3] 1 []).1.getD 0 false
           && !(autorangeMasks [0, 2, 2, 0] [0, 1, 2, 3] 1 []).2.1.getD 0 false)) :=
  ⟨by decide, by decide⟩

/-- C1 amended: for every completed autorange run the final masks are
pairwise disjoint — in particular `background ∧ signal = ∅`, and a sample in
`trn` is in neither `bkg` nor `sig`.  (The stronger original claim
`trn = ¬bkg ∧ ¬sig` fails at the forced-False edge samples and at samples
cleared by the safety pass, so the three masks need not cover every
sample.) -/
theorem autorange_masks_pairwise_disjoint (v time : List ℚ) (thr : ℚ)
    (tran : List (ℚ × ℚ)) (i : ℕ) :
    ¬((autorangeMasks v time thr tran).1.getD i false = true ∧
      (autorangeMasks v time thr tran).2.1.getD i false = true) ∧
    ((autorangeMasks v time thr tran).2.2.getD i false = true →
      (autorangeMasks v time thr tran).1.getD i false = false ∧
      (autorangeMasks v time thr tran).2.1.getD i false = false) := by
  unfold autorangeMasks
  apply autorangeFinal_pairwise
  · intro j
    rintro ⟨hb, hs⟩
    have hb1 : (bkgStage1 v time thr tran).getD j false = true := subM_clearEnds _ j hb
    have hs1 : (sigStage1 v time thr tran).getD j false = true := subM_clearEnds _ j hs
    have hb0 : (bkgInit v thr).getD j false = true :=
      subM_removeTrans time tran _ j hb1
    have hs0 : ((bkgInit v thr).map (fun b => !b)).getD j false = true :=
      subM_removeTrans time tran _ j hs1
    rw [bkgInit_not_disj _ j hb0] at hs0
    simp at hs0
  · intro j h
    have ht1 : (trnStage1 v time thr tran).getD j false = true := subM_clearEnds _ j h
    have hmk := mkTrn_true (bkgStage1 v time thr tran) (sigStage1 v time thr tran) j ht1
    exact ⟨(subM_clearEnds _).eq_false hmk.1, (subM_clearEnds _).eq_false hmk.2⟩

/-- C7 counterexample: for the mask `[F,F,T,T,T,F,F,F]` over the time axis
`[0,…,7]`, the round trip drops sample 2 — the first sample of the True run —
which is neither the first nor the last sample of the trace. -/
theorem sigRoundtrip_counterexample :
    sigRoundtrip [false, false, true, true, true, false, false, false]
        [0, 1, 2, 3, 4, 5, 6, 7]
      = [false, false, false, true, true, false, false, false] ∧
    (sigRoundtrip [false, false, true, true, true, false, false, false]
        [0, 1, 2, 3, 4, 5, 6, 7]).getD 2 false = false ∧
    [false, false, true, true, true, false, false, false].getD 2 false = true :=
  ⟨by decide, by decide, by decide⟩

/-- C7 amended: over a strictly increasing time axis, the ranges-and-back
round trip of a mask `m` reproduces the edge-cleared mask *minus the first
sample of every contiguous True run*: the result is True at i iff i > 0 and
the edge-cleared mask is True at both i and i−1.  (This instance of
`sigRoundtrip_characterization` is the claim C7 theorem.) -/
theorem sigRoundtrip_reproduces (m : List Bool) (t : List ℚ)
    (hlen : t.length = m.length) (ht : t.Pairwise (· < ·)) (i : ℕ) :
    ((sigRoundtrip m t).getD i false = true ↔
      0 < i ∧ (clearEnds m).getD i false = true ∧
        (clearEnds m).getD (i - 1) false = true) :=
  sigRoundtrip_characterization m t hlen ht i

/-- Witness for the amended C7 at a concrete mask, time axis and sample. -/
theorem sigRoundtrip_reproduces_witness :
    ([0, 1, 2, 3, 4, 5, 6, 7] : List ℚ).length
        = [false, false, true, true, true, false, false, false].length ∧
    ([0, 1, 2, 3, 4, 5, 6, 7] : List ℚ).Pairwise (· < ·) ∧
    ((sigRoundtrip [false, false, true, true, true, false, false, false]
        [0, 1, 2, 3, 4, 5, 6, 7]).getD 3 false = true ↔
      0 < 3 ∧ (clearEnds [false, false, true, true, true, false, false, false]).getD
          3 false = true ∧
        (clearEnds [false, false, true, true, true, false, false, false]).getD
          (3 - 1) false = true) :=
  ⟨by decide, by decide,
    sigRoundtrip_reproduces [false, false, true, true, true, false, false, false]
      [0, 1, 2, 3, 4, 5, 6, 7] (by decide) (by decide) 3⟩

/-! ## The spike filter (`D.spike_filter`, latools.py lines 1495–1537)

Trace values are `Option ℚ` with `none` for NaN. -/

/-- `np.nanmean` over a window: NaN entries are ignored; an all-NaN window
gives NaN. -/
def nanmean (xs : List (Option ℚ)) : Option ℚ :=
  if xs.reduceOption.length = 0 then none
  else some (xs.reduceOption.sum / (xs.reduceOption.length : ℚ))

/-- `rolling_window(v, win, pad=np.nan)` (latools.py lines 1410–1451): the
n−win+1 full windows with win//2 all-NaN windows prepended and appended. -/
def rollingWindowPadNaN (v : List (Option ℚ)) (win : ℕ) : List (List (Option ℚ)) :=
  List.replicate (win / 2) (List.replicate win (none : Option ℚ))
    ++ (List.range (v.length - win + 1)).map (fun i => (v.drop i).take win)
    ++ List.replicate (win / 2) (List.replicate win (none : Option ℚ))

/-- Lines 1517–1521: the rolling mean of the NaN-padded windows. -/
def rollingMean (v : List (Option ℚ)) (win : ℕ) : List (Option ℚ) :=
  (rollingWindowPadNaN v win).map nanmean

/-- Lines 1522–1526: `over = v > rmean + nlim * rstd` with
`rstd = rmean ** 0.5`.  Any comparison involving NaN is False; the square
root of a negative rolling mean is NaN.  `sqrtFn` abstracts the external
(real-valued) square root on nonnegative arguments. -/
def spikeOver (v : List (Option ℚ)) (win : ℕ) (nlim : ℚ) (sqrtFn : ℚ → ℚ) :
    List Bool :=
  v.zipWith (fun vi mi =>
    match vi, mi with
    | some x, some m => if m < 0 then false else decide (x > m + nlim * sqrtFn m)
    | _, _ => false) (rollingMean v win)

/-- The flagged sample indices, in increasing order. -/
def spikeFlagged (v : List (Option ℚ)) (win : ℕ) (nlim : ℚ) (sqrtFn : ℚ → ℚ) :
    List ℕ :=
  trueIdxFrom (spikeOver v win nlim sqrtFn) 0

/-- `np.roll(m, -1)` for a boolean mask. -/
def rollM1 (m : List Bool) : List Bool := m.tail ++ [m.headD false]

/-- `np.roll(m, 1)` for a boolean mask. -/
def rollP1 (m : List Bool) : List Bool := m.getLastD false :: m.dropLast

/-- `np.nanmean` of one row of the `neighbours` array (lines 1529–1532). -/
def nanmean2 (a b : Option ℚ) : Option ℚ := nanmean [a, b]

/-- One pass of `D.spike_filter` on a single trace (lines 1514–1535): flag
`over`, build `neighbours = hstack([v[np.roll(over,-1)], v[np.roll(over,1)]])`
— the values left and right of the flagged samples, each column selected in
increasing index order with cyclic wraparound — take their row-wise nanmean,
and assign the k-th replacement to the k-th flagged sample
(`v[over] = replacements`). -/
def spikeRun (v : List (Option ℚ)) (win : ℕ) (nlim : ℚ) (sqrtFn : ℚ → ℚ) :
    List (Option ℚ) :=
  let over := spikeOver v win nlim sqrtFn
  let flagged := trueIdxFrom over 0
  let leftVals := maskSelect v (rollM1 over)
  let rightVals := maskSelect v (rollP1 over)
  let reps := List.zipWith nanmean2 leftVals rightVals
  v.mapIdx (fun i x =>
    match (flagged.zip reps).find? (fun p => decide (p.1 = i)) with
    | some p => p.2
    | none => x)

theorem reduceOption_replicate_none (k : ℕ) :
    (List.replicate k (none : Option ℚ)).reduceOption = [] := by
  induction k with
  | zero => rfl
  | succ k ih => simpa [List.replicate_succ, List.reduceOption_cons_of_none] using ih

theorem nanmean_replicate_none (k : ℕ) :
    nanmean (List.replicate k (none : Option ℚ)) = none := by
  simp [nanmean, reduceOption_replicate_none]

theorem length_rollingWindowPadNaN (v : List (Option ℚ)) (win : ℕ)
    (hodd : win % 2 = 1) (hwin : win ≤ v.length) :
    (rollingWindowPadNaN v win).length = v.length := by
  simp only [rollingWindowPadNaN, List.length_append, List.length_replicate,
    List.length_map, List.length_range]
  omega

theorem rollingMean_head (v : List (Option ℚ)) (win : ℕ) (h2 : 2 ≤ win) :
    (rollingMean v win)[0]? = some none := by
  have hp : 0 < win / 2 := by omega
  rw [rollingMean, List.getElem?_map, rollingWindowPadNaN, List.append_assoc,
    List.getElem?_append]
  rw [List.length_replicate, if_pos hp, List.getElem?_replicate, if_pos hp]
  simp [nanmean_replicate_none]

theorem rollingMean_last (v : List (Option ℚ)) (win : ℕ)
    (hodd : win % 2 = 1) (h3 : 3 ≤ win) (hwin : win ≤ v.length) :
    (rollingMean v win)[v.length - 1]? = some none := by
  have hlen : (rollingMean v win).length = v.length := by
    rw [rollingMean, List.length_map]
    exact length_rollingWindowPadNaN v win hodd hwin
  have hne : v.length - 1 = (rollingMean v win).length - 1 := by omega
  rw [hne, ← List.getLast?_eq_getElem?, rollingMean, List.getLast?_map,
    rollingWindowPadNaN, List.getLast?_append, List.getLast?_append]
  have hrep : (List.replicate (win / 2) (List.replicate win (none : Option ℚ))).getLast?
      = some (List.replicate win none) := by
    have hp : 0 < win / 2 := by omega
    rw [List.getLast?_eq_getElem?, List.length_replicate, List.getElem?_replicate,
      if_pos (by omega)]
  rw [hrep]
  simp [nanmean_replicate_none]

theorem spikeOver_getD_false_of_rmean_none (v : List (Option ℚ)) (win : ℕ)
    (nlim : ℚ) (sqrtFn : ℚ → ℚ) (i : ℕ)
    (h : (rollingMean v win)[i]? = some none) :
    (spikeOver v win nlim sqrtFn).getD i false = false := by
  rw [spikeOver, List.getD_eq_getElem?_getD, List.getElem?_zipWith, h]
  rcases hv : v[i]? with _ | x <;> simp

theorem mem_trueIdxFrom {l : List Bool} : ∀ {i x : ℕ}, x ∈ trueIdxFrom l i →
    i ≤ x ∧ l.getD (x - i) false = true := by
  induction l with
  | nil => intro i x hx; simp [trueIdxFrom] at hx
  | cons b bs ih =>
    intro i x hx
    rw [show trueIdxFrom (b :: bs) i
        = if b then i :: trueIdxFrom bs (i + 1) else trueIdxFrom bs (i + 1) from rfl] at hx
    by_cases hb : b = true
    · rw [if_pos hb] at hx
      rcases List.mem_cons.mp hx with rfl | hx
      · simpa using hb
      · obtain ⟨h1, h2⟩ := ih hx
        refine ⟨by omega, ?_⟩
        rw [show x - i = (x - (i + 1)) + 1 from by omega, List.getD_cons_succ]
        exact h2
    · rw [if_neg hb] at hx
      obtain ⟨h1, h2⟩ := ih hx
      refine ⟨by omega, ?_⟩
      rw [show x - i = (x - (i + 1)) + 1 from by omega, List.getD_cons_succ]
      exact h2

theorem getElem?_mapIdx_general (f : ℕ → α → β) (l : List α) (i : ℕ) :
    (l.mapIdx f)[i]? = (l[i]?).map (f i) := by
  rcases Nat.lt_or_ge i l.length with hi | hi
  · rw [List.getElem?_eq_getElem (by simpa [List.length_mapIdx] using hi),
      List.getElem?_eq_getElem hi, List.getElem_mapIdx]
    rfl
  · rw [List.getElem?_eq_none (by simpa [List.length_mapIdx] using hi),
      List.getElem?_eq_none hi]
    rfl

theorem spikeRun_getD_of_not_over (v : List (Option ℚ)) (win : ℕ) (nlim : ℚ)
    (sqrtFn : ℚ → ℚ) (i : ℕ) (hi : i < v.length)
    (h : (spikeOver v win nlim sqrtFn).getD i false = false) :
    (spikeRun v win nlim sqrtFn).getD i none = v.getD i none := by
  have hfind : ((trueIdxFrom (spikeOver v win nlim sqrtFn) 0).zip
      (List.zipWith nanmean2 (maskSelect v (rollM1 (spikeOver v win nlim sqrtFn)))
        (maskSelect v (rollP1 (spikeOver v win nlim sqrtFn))))).find?
      (fun p => decide (p.1 = i)) = none := by
    rw [List.find?_eq_none]
    rintro ⟨p1, p2⟩ hp hpi
    simp only [decide_eq_true_eq] at hpi
    have hp1 : p1 ∈ trueIdxFrom (spikeOver v win nlim sqrtFn) 0 :=
      (List.of_mem_zip hp).1
    rw [hpi] at hp1
    obtain ⟨_, hov⟩ := mem_trueIdxFrom hp1
    rw [Nat.sub_zero, h] at hov
    exact absurd hov (by simp)
  simp only [spikeRun]
  rw [List.getD_eq_getElem?_getD, getElem?_mapIdx_general, List.getElem?_eq_getElem hi]
  simp only [Option.map_some', Option.getD_some, hfind]
  rw [List.getD_eq_getElem?_getD, List.getElem?_eq_getElem hi, Option.getD_some]

/-! ## Claims C8 and C9 -/

/-- C8: the spike filter never alters the first or last sample of a trace and
raises no error there: the NaN-padded rolling mean is NaN at the boundary
positions, every comparison with NaN is False, so boundary samples are never
flagged and `v[over] = replacements` leaves them untouched. -/
theorem spike_filter_boundary_unchanged (v : List (Option ℚ)) (win : ℕ)
    (nlim : ℚ) (sqrtFn : ℚ → ℚ) (hodd : win % 2 = 1) (h3 : 3 ≤ win)
    (hwin : win ≤ v.length) :
    (spikeOver v win nlim sqrtFn).getD 0 false = false ∧
    (spikeOver v win nlim sqrtFn).getD (v.length - 1) false = false ∧
    (spikeRun v win nlim sqrtFn).getD 0 none = v.getD 0 none ∧
    (spikeRun v win nlim sqrtFn).getD (v.length - 1) none
      = v.getD (v.length - 1) none := by
  have h0 : (spikeOver v win nlim sqrtFn).getD 0 false = false :=
    spikeOver_getD_false_of_rmean_none v win nlim sqrtFn 0
      (rollingMean_head v win (by omega))
  have hl : (spikeOver v win nlim sqrtFn).getD (v.length - 1) false = false :=
    spikeOver_getD_false_of_rmean_none v win nlim sqrtFn (v.length - 1)
      (rollingMean_last v win hodd h3 hwin)
  refine ⟨h0, hl, ?_, ?_⟩
  · exact spikeRun_getD_of_not_over v win nlim sqrtFn 0 (by omega) h0
  · exact spikeRun_getD_of_not_over v win nlim sqrtFn (v.length - 1) (by omega) hl

/-- Witness for C8 on a concrete trace with default parameters. -/
theorem spike_filter_boundary_unchanged_witness :
    (spikeOver [some 1, some 50, some 1] 3 0 (fun _ => 0)).getD 0 false = false ∧
    (spikeOver [some 1, some 50, some 1] 3 0 (fun _ => 0)).getD
        (([some 1, some 50, some 1] : List (Option ℚ)).length - 1) false = false ∧
    (spikeRun [some 1, some 50, some 1] 3 0 (fun _ => 0)).getD 0 none
      = ([some 1, some 50, some 1] : List (Option ℚ)).getD 0 none ∧
    (spikeRun [some 1, some 50, some 1] 3 0 (fun _ => 0)).getD
        (([some 1, some 50, some 1] : List (Option ℚ)).length - 1) none
      = ([some 1, some 50, some 1] : List (Option ℚ)).getD
          (([some 1, some 50, some 1] : List (Option ℚ)).length - 1) none :=
  spike_filter_boundary_unchanged [some 1, some 50, some 1] 3 0 (fun _ => 0)
    rfl (by omega) (by decide)

/-- C9 counterexample: two adjacent spikes, `win = 3`, `nlim = 0`.  The first
pass flags samples 1 and 2 and replaces them by neighbour means that remain
above the rolling mean recomputed on the filtered data, so the second pass
flags additional points — the once-filtered output is not a fixed point. -/
theorem spike_filter_not_idempotent :
    spikeFlagged [some 0, some 10, some 12, some 0, some 0] 3 0 (fun _ => 0)
      = [1, 2] ∧
    spikeRun [some 0, some 10, some 12, some 0, some 0] 3 0 (fun _ => 0)
      = [some 0, some 6, some 5, some 0, some 0] ∧
    spikeFlagged (spikeRun [some 0, some 10, some 12, some 0, some 0] 3 0
        (fun _ => 0)) 3 0 (fun _ => 0) ≠ [] := by
  have hw : rollingWindowPadNaN [some 0, some 10, some 12, some 0, some 0] 3
      = [[none, none, none], [some 0, some 10, some 12], [some 10, some 12, some 0],
         [some 12, some 0, some 0], [none, none, none]] := by decide
  have hm : rollingMean [some 0, some 10, some 12, some 0, some 0] 3
      = [none, some (22 / 3), some (22 / 3), some 4, none] := by
    rw [rollingMean, hw]
    norm_num [nanmean, List.reduceOption_cons_of_some, List.reduceOption_cons_of_none,
      List.reduceOption_nil]
  have hov : spikeOver [some 0, some 10, some 12, some 0, some 0] 3 0 (fun _ => 0)
      = [false, true, true, false, false] := by
    rw [spikeOver, hm]
    norm_num
  have hrun : spikeRun [some 0, some 10, some 12, some 0, some 0] 3 0 (fun _ => 0)
      = [some 0, some 6, some 5, some 0, some 0] := by
    simp only [spikeRun]
    rw [hov]
    norm_num [trueIdxFrom, rollM1, rollP1, maskSelect, nanmean2, nanmean,
      List.reduceOption_cons_of_some, List.reduceOption_cons_of_none,
      List.reduceOption_nil, List.mapIdx_cons, List.mapIdx_nil, List.find?]
  have hw1 : rollingWindowPadNaN [some 0, some 6, some 5, some 0, some 0] 3
      = [[none, none, none], [some 0, some 6, some 5], [some 6, some 5, some 0],
         [some 5, some 0, some 0], [none, none, none]] := by decide
  have hm1 : rollingMean [some 0, some 6, some 5, some 0, some 0] 3
      = [none, some (11 / 3), some (11 / 3), some (5 / 3), none] := by
    rw [rollingMean, hw1]
    norm_num [nanmean, List.reduceOption_cons_of_some, List.reduceOption_cons_of_none,
      List.reduceOption_nil]
  have hov1 : spikeOver [some 0, some 6, some 5, some 0, some 0] 3 0 (fun _ => 0)
      = [false, true, true, false, false] := by
    rw [spikeOver, hm1]
    norm_num
  refine ⟨by rw [spikeFlagged, hov]; decide, hrun, ?_⟩
  rw [hrun, spikeFlagged, hov1]
  decide

/-- C9 amended: the spike filter is a fixed point on traces where the first
pass flags nothing — then the output equals the input and a second pass also
flags nothing.  (In general a second pass can flag additional points, see the
counterexample.) -/
theorem spike_filter_fixed_point_when_clean (v : List (Option ℚ)) (win : ℕ)
    (nlim : ℚ) (sqrtFn : ℚ → ℚ) (h : spikeFlagged v win nlim sqrtFn = []) :
    spikeRun v win nlim sqrtFn = v ∧
    spikeFlagged (spikeRun v win nlim sqrtFn) win nlim sqrtFn = [] := by
  have h1 : spikeRun v win nlim sqrtFn = v := by
    simp only [spikeRun]
    rw [show trueIdxFrom (spikeOver v win nlim sqrtFn) 0 = [] from h]
    apply List.ext_getElem
    · simp [List.length_mapIdx]
    · intro i hi1 hi2
      rw [List.getElem_mapIdx]
      simp [List.find?]
  refine ⟨h1, ?_⟩
  rw [h1]
  exact h

/-- Witness for the amended C9 on a clean concrete trace. -/
theorem spike_filter_fixed_point_when_clean_witness :
    spikeFlagged [none, none, none] 3 0 (fun _ => 0) = [] ∧
    spikeRun [none, none, none] 3 0 (fun _ => 0) = [none, none, none] ∧
    spikeFlagged (spikeRun [none, none, none] 3 0 (fun _ => 0)) 3 0
      (fun _ => 0) = [] :=
  ⟨by decide,
    (spike_filter_fixed_point_when_clean [none, none, none] 3 0 (fun _ => 0)
      (by decide)).1,
    (spike_filter_fixed_point_when_clean [none, none, none] 3 0 (fun _ => 0)
      (by decide)).2⟩

/-! ## The signal optimiser selection step
(`signal_optimiser`, signal_optimiser.py lines 210–228)

The scaled mean/std surfaces are matrices over (window width, window centre):
row r corresponds to width `min_points + r`, column c to centre c.  Entries
are `Option ℚ` with `none` for NaN. -/

/-- One threshold comparison `value < threshold - 0.01` (lines 213–214);
a NaN entry compares False. -/
def underThr (x : Option ℚ) (thr : ℚ) : Bool :=
  match x with
  | none => false
  | some q => decide (q < thr - 1 / 100)

/-- `ind = rind & mind` (lines 213–216). -/
def optInd (msstds msmeans : List (List (Option ℚ))) (stdThr meanThr : ℚ) :
    List (List Bool) :=
  msstds.zipWith (fun rowS rowM =>
    rowS.zipWith (fun s m => underThr s stdThr && underThr m meanThr) rowM) msmeans

/-- The flagged (width, centre) cells of the grid, row-major. -/
def flaggedCells (ind : List (List Bool)) (minPoints : ℕ) : List (ℕ × ℕ) :=
  (ind.mapIdx (fun r row => (trueIdxFrom row 0).map (fun c => (minPoints + r, c)))).flatten

/-- `opt_n_points = npoints[ind].max()` (line 217); numpy raises on an empty
selection, modelled as `none`. -/
def optNPoints (ind : List (List Bool)) (minPoints : ℕ) : Option ℕ :=
  ((flaggedCells ind minPoints).map Prod.fst).max?

/-- Lines 219–220 as written in the source:
`cind = ind & ((npoints <= opt_n_points + 1) | (npoints >= opt_n_points - 1))`
then `opt_centre = centres[cind].min()`. -/
def optCentreCode (ind : List (List Bool)) (minPoints : ℕ) : Option ℕ :=
  match optNPoints ind minPoints with
  | none => none
  | some mx =>
    (((flaggedCells ind minPoints).filter
      (fun cell => decide (cell.1 ≤ mx + 1) || decide (mx - 1 ≤ cell.1))).map
        Prod.snd).min?

/-- The claimed (and comment-documented) selection: the minimum centre among
under-threshold cells whose width is within one unit of the maximum width. -/
def optCentreClaim (ind : List (List Bool)) (minPoints : ℕ) : Option ℕ :=
  match optNPoints ind minPoints with
  | none => none
  | some mx =>
    (((flaggedCells ind minPoints).filter
      (fun cell => decide (cell.1 ≤ mx + 1) && decide (mx - 1 ≤ cell.1))).map
        Prod.snd).min?

/-! ## `D.filter_correlation` focus mutation (latools.py lines 2480–2539) -/

/-- A trace object: the working-stage (`focus`) arrays and the filter
registry. -/
structure DState where
  focus : List (String × List (Option ℚ))
  flt : FiltState
  deriving Repr, DecidableEq

/-- `x[~ind] = np.nan`: NaN written at every sample not passing the filter. -/
def nanOutside (ind : List Bool) (vs : List (Option ℚ)) : List (Option ℚ) :=
  ind.zipWith (fun b w => if b then w else none) vs

/-- Lines 2512–2519 of `D.filter_correlation`: obtain the pre-filter via
`grab_filt`, then `x = self.focus[x_analyte]; x[~ind] = np.nan` and likewise
for `y_analyte`.  The assignments alias the arrays stored in `self.focus`, so
they overwrite the working-stage data in place; this definition returns the
post-call state.  The remaining lines (2522–2537) compute the windowed
correlation and register the resulting mask — they do not write to `focus`. -/
def filter_correlation_focus (d : DState) (xa ya : String) (sel : Selector) :
    Except PyErr DState := do
  let ind ← grabFilt d.flt sel none
  pure { d with focus := d.focus.map (fun p =>
    if p.1 = xa ∨ p.1 = ya then (p.1, nanOutside ind p.2) else p) }

/-- Lookup through a key-preserving conditional map of an association list. -/
theorem dictGet?_map_cond (d : List (String × β)) (P : String → Prop)
    [DecidablePred P] (g : β → β) (k : String) (hk : P k) (v : β)
    (h : dictGet? d k = some v) :
    dictGet? (d.map (fun p => if P p.1 then (p.1, g p.2) else p)) k = some (g v) := by
  induction d with
  | nil => simp [dictGet?] at h
  | cons p rest ih =>
    obtain ⟨kk, vv⟩ := p
    by_cases hp : kk = k
    · subst hp
      simp only [dictGet?, if_pos rfl] at h
      obtain rfl := Option.some.inj h
      simp [dictGet?, hk]
    · simp only [dictGet?, if_neg hp] at h
      by_cases hP : P kk
      · simp only [List.map_cons, if_pos hP, dictGet?, if_neg hp]
        exact ih h
      · simp only [List.map_cons, if_neg hP, dictGet?, if_neg hp]
        exact ih h

theorem nanOutside_getD_none (ind : List Bool) (vs : List (Option ℚ)) (i : ℕ)
    (hi : i < ind.length) (hiv : i < vs.length)
    (hind : ind.getD i false = false) :
    (nanOutside ind vs).getD i none = none := by
  rw [nanOutside, List.getD_eq_getElem?_getD, List.getElem?_zipWith,
    List.getElem?_eq_getElem hi, List.getElem?_eq_getElem hiv]
  rw [List.getD_eq_getElem?_getD, List.getElem?_eq_getElem hi] at hind
  simp only [Option.getD_some] at hind
  simp [hind]

/-! ## Claims C6 and C10 -/

/-- Concrete scaled-surface grid for C6: widths 5, 6, 7 (rows), centres 0–10
(columns); finite entries only at (width 5, centre 3) and (width 7,
centre 10). -/
def c6Grid : List (List (Option ℚ)) :=
  [[none, none, none, some 0, none, none, none, none, none, none, none],
   [none, none, none, none, none, none, none, none, none, none, none],
   [none, none, none, none, none, none, none, none, none, none, some 0]]

/-- The under-threshold grid corresponding to `c6Grid` with both thresholds
equal to 1. -/
def c6Ind : List (List Bool) :=
  [[false, false, false, true, false, false, false, false, false, false, false],
   [false, false, false, false, false, false, false, false, false, false, false],
   [false, false, false, false, false, false, false, false, false, false, true]]

/-- C6: the tie-break written in the source is vacuous — the boolean
`(npoints <= opt + 1) | (npoints >= opt - 1)` holds for every width, so
`cind = ind` and `opt_centre` is the minimum centre over *all*
under-threshold cells, not only those within one width unit of the maximum
(contradicting both the claim and the comment on line 218).  Concretely, with
cells at (width 5, centre 3) and (width 7, centre 10), the code selects
centre 3 while the documented rule selects centre 10. -/
theorem signal_optimiser_tiebreak_vacuous :
    (∀ (w mx : ℕ), (decide (w ≤ mx + 1) || decide (mx - 1 ≤ w)) = true) ∧
    (∀ (ind : List (List Bool)) (minPoints mx : ℕ),
      optNPoints ind minPoints = some mx →
      optCentreCode ind minPoints
        = ((flaggedCells ind minPoints).map Prod.snd).min?) ∧
    optInd c6Grid c6Grid 1 1 = c6Ind ∧
    optNPoints c6Ind 5 = some 7 ∧
    optCentreCode c6Ind 5 = some 3 ∧
    optCentreClaim c6Ind 5 = some 10 := by
  have hvac : ∀ (w mx : ℕ), (decide (w ≤ mx + 1) || decide (mx - 1 ≤ w)) = true := by
    intro w mx
    simp only [Bool.or_eq_true, decide_eq_true_eq]
    omega
  refine ⟨hvac, ?_, ?_, by decide, by decide, by decide⟩
  · intro ind minPoints mx h
    simp only [optCentreCode, h]
    rw [List.filter_eq_self.mpr (fun cell _ => hvac cell.1 mx)]
  · rw [optInd, c6Grid, c6Ind]
    norm_num [underThr]

/-- Witness for C6: at the concrete grid the vacuous tie-break makes the code
take the minimum centre over all flagged cells. -/
theorem signal_optimiser_tiebreak_vacuous_witness :
    optNPoints c6Ind 5 = some 7 ∧
    optCentreCode c6Ind 5 = ((flaggedCells c6Ind 5).map Prod.snd).min? :=
  ⟨by decide, signal_optimiser_tiebreak_vacuous.2.1 c6Ind 5 7 (by decide)⟩

/-- C10: creating a correlation filter mutates the working-stage data: after
the call, the focus arrays of both analytes hold NaN at every sample not
passing the pre-filter, so the stored data differs from its value before the
call whenever such a sample held a finite value. -/
theorem filter_correlation_writes_nan (d : DState) (xa ya : String)
    (sel : Selector) (ind : List Bool) (vsx vsy : List (Option ℚ)) (i j : ℕ)
    (hgrab : grabFilt d.flt sel none = .ok ind)
    (hx : dictGet? d.focus xa = some vsx) (hy : dictGet? d.focus ya = some vsy)
    (hi : i < ind.length) (hiv : i < vsx.length)
    (hind : ind.getD i false = false) (hv : vsx.getD i none ≠ none)
    (hj : j < ind.length) (hjv : j < vsy.length)
    (hjnd : ind.getD j false = false) :
    ∃ d', filter_correlation_focus d xa ya sel = .ok d' ∧
      dictGet? d'.focus xa = some (nanOutside ind vsx) ∧
      dictGet? d'.focus ya = some (nanOutside ind vsy) ∧
      (nanOutside ind vsx).getD i none = none ∧
      (nanOutside ind vsy).getD j none = none ∧
      nanOutside ind vsx ≠ vsx := by
  refine ⟨{ d with focus := d.focus.map (fun p =>
      if p.1 = xa ∨ p.1 = ya then (p.1, nanOutside ind p.2) else p) }, ?_, ?_, ?_,
    nanOutside_getD_none ind vsx i hi hiv hind,
    nanOutside_getD_none ind vsy j hj hjv hjnd, ?_⟩
  · simp only [filter_correlation_focus, hgrab]
    rfl
  · exact dictGet?_map_cond d.focus (fun s => s = xa ∨ s = ya)
      (nanOutside ind) xa (Or.inl rfl) vsx hx
  · exact dictGet?_map_cond d.focus (fun s => s = xa ∨ s = ya)
      (nanOutside ind) ya (Or.inr rfl) vsy hy
  · intro heq
    apply hv
    rw [← heq]
    exact nanOutside_getD_none ind vsx i hi hiv hind

/-- Witness for C10: a registry holding one filter `f = [True, False]`, used
as the pre-filter for a correlation between analytes X and Y; sample 1 fails
the filter and its finite focus values are overwritten by NaN. -/
theorem filter_correlation_writes_nan_witness :
    ∃ d', filter_correlation_focus
        (DState.mk [("X", [some 1, some 2]), ("Y", [some 3, some 4])]
          (FiltState.mk 2 ["X", "Y"] [("f", [true, false])] [("f", "")]
            [("f", "")] [] [(Sum.inl 0, "f")] 1
            [("X", [("f", true)]), ("Y", [("f", true)])]))
        "X" "Y" (.str "f") = .ok d' ∧
      dictGet? d'.focus "X" = some (nanOutside [true, false] [some 1, some 2]) ∧
      dictGet? d'.focus "Y" = some (nanOutside [true, false] [some 3, some 4]) ∧
      (nanOutside [true, false] [some 1, some 2]).getD 1 none = none ∧
      (nanOutside [true, false] [some 3, some 4]).getD 1 none = none ∧
      nanOutside [true, false] [some 1, some 2] ≠ [some 1, some 2] :=
  filter_correlation_writes_nan
    (DState.mk [("X", [some 1, some 2]), ("Y", [some 3, some 4])]
      (FiltState.mk 2 ["X", "Y"] [("f", [true, false])] [("f", "")]
        [("f", "")] [] [(Sum.inl 0, "f")] 1
        [("X", [("f", true)]), ("Y", [("f", true)])]))
    "X" "Y" (.str "f") [true, false] [some 1, some 2] [some 3, some 4] 1 1
    rfl (by decide) (by decide) (by decide) (by decide) (by decide)
    (by decide) (by decide) (by decide) (by decide)

end LATools
